import Mathlib

/-!
# Hypertrace collector: PII filter processor and tenant-ID processor

A shallow embedding of `processors/piifilterprocessor/processor.go` (the filter
chain that walks every span attribute of a batch) and of the behaviour that
`processors/tenantidprocessor/tenantidprocessor_test.go` pins for the tenant-ID
processor.

Go values that are mutated in place (the attribute value handed to a filter, the
batch handed to `ProcessTraces`, the logger) are modelled by explicit state
passing: a call returns the state it leaves behind.
-/

namespace Hypertrace

/-! ## pdata: the batch data model -/

/-- The `pdata.AttributeValue` union: null, string, int, double (carried as its
bit pattern), bool, map and array. -/
inductive AttributeValue where
  | null : AttributeValue
  | string (s : String) : AttributeValue
  | int (i : Int) : AttributeValue
  | double (bits : Nat) : AttributeValue
  | bool (b : Bool) : AttributeValue
  | map (kvs : List (String × AttributeValue)) : AttributeValue
  | array (vs : List AttributeValue) : AttributeValue

/-- The `pdata.AttributeValueType` tags. -/
inductive AttributeValueType where
  | NULL | STRING | INT | DOUBLE | BOOL | MAP | ARRAY
  deriving DecidableEq, Repr

/-- The method `AttributeValue.Type()`. -/
def AttributeValue.Type : AttributeValue → AttributeValueType
  | .null => .NULL
  | .string _ => .STRING
  | .int _ => .INT
  | .double _ => .DOUBLE
  | .bool _ => .BOOL
  | .map _ => .MAP
  | .array _ => .ARRAY

/-- The method `AttributeValue.StringVal()`: the string payload, empty for the other
types. -/
def AttributeValue.StringVal : AttributeValue → String
  | .string s => s
  | _ => ""

/-- A `pdata.AttributeMap`: a sequence of key/value entries, iterated by `ForEach`
in storage order. -/
abbrev AttributeMap := List (String × AttributeValue)

/-- A `pdata.Span`; only the name and the attributes matter to the processors. -/
structure Span where
  name : String
  attributes : AttributeMap

/-- A `pdata.InstrumentationLibrarySpans`. -/
structure InstrumentationLibrarySpans where
  spans : List Span

/-- A `pdata.ResourceSpans` with the attributes of its resource. -/
structure ResourceSpans where
  resourceAttributes : AttributeMap
  instrumentationLibrarySpans : List InstrumentationLibrarySpans

/-- A `pdata.Traces` batch. -/
structure Traces where
  resourceSpans : List ResourceSpans

/-- The result of `pdata.NewTraces()`: a batch with no resource spans. -/
def NewTraces : Traces := ⟨[]⟩

/-- All spans of a batch, in walking order (resource spans, then instrumentation
library spans, then spans). -/
def Traces.allSpans (td : Traces) : List Span :=
  td.resourceSpans.flatMap fun rs =>
    rs.instrumentationLibrarySpans.flatMap fun ils => ils.spans

/-- The method `Traces.SpanCount()`. -/
def Traces.SpanCount (td : Traces) : Nat := td.allSpans.length

/-- All span attributes of a batch, in walking order. -/
def Traces.allAttributes (td : Traces) : List (String × AttributeValue) :=
  td.allSpans.flatMap fun s => s.attributes

/-- The skeleton of a batch: per resource spans entry, per instrumentation library,
per span, the span name and the attribute keys in order. Everything but the
attribute values. -/
def Traces.skeleton (td : Traces) : List (AttributeMap × List (List (String × List String))) :=
  td.resourceSpans.map fun rs =>
    (rs.resourceAttributes,
      rs.instrumentationLibrarySpans.map fun ils =>
        ils.spans.map fun s => (s.name, s.attributes.map Prod.fst))

/-! ## filters: the interface the PII processor drives -/

/-- Go `error` values as far as `errors.Is(err, filters.ErrUnprocessableValue)` can
tell them apart: the sentinel itself, an error wrapping another one, and any
other error. -/
inductive FilterError where
  | ErrUnprocessableValue : FilterError
  | wrap (msg : String) (inner : FilterError) : FilterError
  | other (msg : String) : FilterError
  deriving DecidableEq, Repr

/-- The test `errors.Is(err, filters.ErrUnprocessableValue)`: follows the chain of
wrapped errors. -/
def FilterError.isUnprocessableValue : FilterError → Bool
  | .ErrUnprocessableValue => true
  | .wrap _ inner => inner.isUnprocessableValue
  | .other _ => false

/-- What one call of `Filter.RedactAttribute(key, value)` leaves behind: the
attribute value after the call (filters rewrite it in place), the `redacted` flag
and the error (`none` is Go's `nil`). -/
structure RedactResult where
  value : AttributeValue
  isRedacted : Bool
  err : Option FilterError

/-- The interface `filters.Filter`: `Name()` and `RedactAttribute(key, value)`. The
implementations live in the `filters` packages; here a filter is any function of
the key and the value it is handed. -/
structure Filter where
  Name : String
  RedactAttribute : String → AttributeValue → RedactResult

/-! ## logging -/

/-- The severity of a log line. -/
inductive Level where
  | debug | error
  deriving DecidableEq, Repr

/-- The three log lines of `ProcessTraces`, by format string, with their
arguments. -/
inductive Message where
  /-- Line "failed to apply filter %q to attribute with key %q. Unsuitable value." -/
  | failedUnsuitable (filterName key : String) : Message
  /-- Line "failed to apply filter %q to attribute with key %q: %v". -/
  | failedError (filterName key : String) (err : FilterError) : Message
  /-- Line "attribute with key %q redacted by filter %q". -/
  | redacted (key filterName : String) : Message
  deriving DecidableEq, Repr

/-- One line written through `p.logger.Sugar()`. -/
structure LogEntry where
  level : Level
  msg : Message
  deriving DecidableEq, Repr

/-- The filter name a log line carries. -/
def Message.filterName : Message → String
  | .failedUnsuitable f _ => f
  | .failedError f _ _ => f
  | .redacted _ f => f

/-- The attribute key a log line carries. -/
def Message.key : Message → String
  | .failedUnsuitable _ k => k
  | .failedError _ k _ => k
  | .redacted k _ => k

/-- Whether a log line reports a successful redaction. -/
def Message.isRedaction : Message → Bool
  | .redacted _ _ => true
  | _ => false

/-! ## piifilterprocessor -/

/-- A configured rule, `PiiElement`. The redaction strategy is an enum kept as its
number. -/
structure PiiElement where
  Regex : String
  RedactStrategy : Nat
  FQN : String
  deriving DecidableEq, Repr

/-- The rule handed to the matcher, `regexmatcher.Regex`. -/
structure Regex where
  Pattern : String
  RedactStrategy : Nat
  FQN : String
  deriving DecidableEq, Repr

/-- The fields of `Config` that `newPIIFilterProcessor` reads. -/
structure Config where
  KeyRegExs : List PiiElement
  ValueRegExs : List PiiElement
  RedactStrategy : Nat

/-- The function `toRegex`: starts from the nil slice and appends one
`regexmatcher.Regex` per element, in order. -/
def toRegex (es : List PiiElement) : List Regex :=
  es.foldl
    (fun rs e => rs ++ [{ Pattern := e.Regex, RedactStrategy := e.RedactStrategy, FQN := e.FQN }])
    []

/-- The constructors of the `filters` packages that `newPIIFilterProcessor` calls.
Their bodies are not part of the processor, so they are parameters: the matcher
type `M`, `regexmatcher.NewMatcher` (which may fail) and the four `NewFilter`
functions. -/
structure FilterPackages (M : Type) where
  NewMatcher : List Regex → List Regex → Nat → Except String M
  keyvalueNewFilter : M → Filter
  cookieNewFilter : M → Filter
  urlencodedNewFilter : M → Filter
  jsonNewFilter : M → Filter

/-- The struct `piiFilterProcessor` (the logger is the log carried by the walk). -/
structure piiFilterProcessor where
  filters : List Filter

/-- The function `newPIIFilterProcessor`. -/
def newPIIFilterProcessor {M : Type} (pk : FilterPackages M) (cfg : Config) :
    Except String piiFilterProcessor :=
  match pk.NewMatcher (toRegex cfg.KeyRegExs) (toRegex cfg.ValueRegExs) cfg.RedactStrategy with
  | .error err => .error ("failed to create regex matcher: " ++ err)
  | .ok matcher =>
    let fs := [pk.keyvalueNewFilter matcher, pk.cookieNewFilter matcher,
      pk.urlencodedNewFilter matcher, pk.jsonNewFilter matcher]
    .ok { filters := fs }

/-- One recorded call of `RedactAttribute`: the position of the filter in
`p.filters`, the key and the value it was handed. -/
structure Call where
  idx : Nat
  key : String
  value : AttributeValue

/-- What the walk accumulates: the lines written to the logger and, as
instrumentation, the calls made to the filters, both in order. -/
structure Trail where
  log : List LogEntry
  calls : List Call

/-- The empty trail. -/
def Trail.empty : Trail := ⟨[], []⟩

/-- The loop `for _, filter := range p.filters` in the closure handed to `ForEach`,
from position `i` on: `fs` are the filters still to try, `value` is the attribute
value as the previous calls left it. Returns the value after the loop and the
extended trail. -/
def filterLoop (key : String) : List Filter → Nat → AttributeValue → Trail → AttributeValue × Trail
  | [], _, value, tr => (value, tr)
  | filter :: rest, i, value, tr =>
    let r := filter.RedactAttribute key value
    let calls := tr.calls ++ [{ idx := i, key := key, value := value }]
    match r.err with
    | some err =>
      if err.isUnprocessableValue then
        filterLoop key rest (i + 1) r.value
          ⟨tr.log ++ [⟨.debug, .failedUnsuitable filter.Name key⟩], calls⟩
      else
        filterLoop key rest (i + 1) r.value
          ⟨tr.log ++ [⟨.error, .failedError filter.Name key err⟩], calls⟩
    | none =>
      if r.isRedacted then
        (r.value, ⟨tr.log ++ [⟨.debug, .redacted key filter.Name⟩], calls⟩)
      else
        filterLoop key rest (i + 1) r.value ⟨tr.log, calls⟩

/-- The closure handed to `span.Attributes().ForEach`: runs the filter loop on one
attribute. -/
def redactOne (p : piiFilterProcessor) (key : String) (value : AttributeValue) (tr : Trail) :
    AttributeValue × Trail :=
  filterLoop key p.filters 0 value tr

/-- The call `span.Attributes().ForEach(...)`: the closure runs on every entry in
order; the entry keeps its key and holds the value the closure left. -/
def forEachAttribute (p : piiFilterProcessor) : AttributeMap → Trail → AttributeMap × Trail
  | [], tr => ([], tr)
  | (key, value) :: rest, tr =>
    let (value', tr1) := redactOne p key value tr
    let (rest', tr2) := forEachAttribute p rest tr1
    ((key, value') :: rest', tr2)

/-- The loop over `k`: every span of one instrumentation library. -/
def forEachSpan (p : piiFilterProcessor) : List Span → Trail → List Span × Trail
  | [], tr => ([], tr)
  | span :: rest, tr =>
    let (attrs', tr1) := forEachAttribute p span.attributes tr
    let (rest', tr2) := forEachSpan p rest tr1
    ({ span with attributes := attrs' } :: rest', tr2)

/-- The loop over `j`: every instrumentation library of one resource spans entry. -/
def forEachILS (p : piiFilterProcessor) :
    List InstrumentationLibrarySpans → Trail → List InstrumentationLibrarySpans × Trail
  | [], tr => ([], tr)
  | ils :: rest, tr =>
    let (spans', tr1) := forEachSpan p ils.spans tr
    let (rest', tr2) := forEachILS p rest tr1
    ({ ils with spans := spans' } :: rest', tr2)

/-- The loop over `i`: every resource spans entry of the batch. -/
def forEachResourceSpans (p : piiFilterProcessor) :
    List ResourceSpans → Trail → List ResourceSpans × Trail
  | [], tr => ([], tr)
  | rs :: rest, tr =>
    let (ilss', tr1) := forEachILS p rs.instrumentationLibrarySpans tr
    let (rest', tr2) := forEachResourceSpans p rest tr1
    ({ rs with instrumentationLibrarySpans := ilss' } :: rest', tr2)

/-- What `piiFilterProcessor.ProcessTraces` returns and leaves behind: the batch,
the error (`none` is `nil`) and the trail of the walk. -/
structure ProcessResult where
  td : Traces
  err : Option String
  trail : Trail

/-- The method `piiFilterProcessor.ProcessTraces`, started with an empty trail. -/
def piiFilterProcessor.ProcessTraces (p : piiFilterProcessor) (td : Traces) : ProcessResult :=
  let (rss', tr) := forEachResourceSpans p td.resourceSpans Trail.empty
  { td := { td with resourceSpans := rss' }, err := none, trail := tr }

/-! ## Auxiliary definitions for the filter loop -/

/-- Whether a call's outcome makes the loop `break`: a nil error with
`redacted = true`. -/
def RedactResult.stops (r : RedactResult) : Bool :=
  r.err.isNone && r.isRedacted

/-- Appending what a later part of the walk wrote to an earlier trail. -/
def Trail.append (a b : Trail) : Trail := ⟨a.log ++ b.log, a.calls ++ b.calls⟩

/-- The observation asked for one filter invocation, in the spec's words: one line
with the filter name and the attribute key when the filter fails (debug severity
for an unprocessable value, error severity for any other failure) or redacts
(debug severity), and nothing when it succeeds without redacting. -/
def specObservation (filterName key : String) (r : RedactResult) : List LogEntry :=
  match r.err with
  | some e =>
    if e.isUnprocessableValue then [⟨.debug, .failedUnsuitable filterName key⟩]
    else [⟨.error, .failedError filterName key e⟩]
  | none => if r.isRedacted then [⟨.debug, .redacted key filterName⟩] else []

/-- The observation asked for a recorded call: that of the filter at the recorded
position in `fs`, on the recorded key and value. -/
def callObservation (fs : List Filter) (c : Call) : List LogEntry :=
  match fs[c.idx]? with
  | some f => specObservation f.Name c.key (f.RedactAttribute c.key c.value)
  | none => []

/-! ## Auxiliary definitions for the walk -/

/-- The entry the closure leaves for one attribute: the same key with the value
after the filter loop. -/
def attrOut (p : piiFilterProcessor) (kv : String × AttributeValue) : String × AttributeValue :=
  (kv.1, (redactOne p kv.1 kv.2 Trail.empty).1)

/-- The log lines the closure writes for one attribute. -/
def attrLog (p : piiFilterProcessor) (kv : String × AttributeValue) : List LogEntry :=
  (redactOne p kv.1 kv.2 Trail.empty).2.log

/-- The filter calls the closure makes for one attribute. -/
def attrCalls (p : piiFilterProcessor) (kv : String × AttributeValue) : List Call :=
  (redactOne p kv.1 kv.2 Trail.empty).2.calls

/-- The span the walk leaves for a span: only its attribute values change. -/
def spanOut (p : piiFilterProcessor) (s : Span) : Span :=
  { s with attributes := s.attributes.map (attrOut p) }

/-- The instrumentation library spans the walk leaves. -/
def ilsOut (p : piiFilterProcessor) (ils : InstrumentationLibrarySpans) :
    InstrumentationLibrarySpans :=
  { ils with spans := ils.spans.map (spanOut p) }

/-- The resource spans entry the walk leaves. -/
def rsOut (p : piiFilterProcessor) (rs : ResourceSpans) : ResourceSpans :=
  { rs with instrumentationLibrarySpans := rs.instrumentationLibrarySpans.map (ilsOut p) }

/-- All span attributes under a list of resource spans entries, in walking order. -/
def rssAttributes (rss : List ResourceSpans) : List (String × AttributeValue) :=
  ((rss.flatMap fun rs =>
      rs.instrumentationLibrarySpans.flatMap fun ils => ils.spans).flatMap fun s => s.attributes)

/-! ## Sample filters and batches -/

/-- A filter that reports `redacted = true` together with an unexpected error. -/
def redactsWithError : Filter :=
  ⟨"keyvalue", fun _ v => ⟨v, true, some (.other "boom")⟩⟩

/-- A filter that cannot decode the value: a wrapped `ErrUnprocessableValue`. -/
def cannotParse : Filter :=
  ⟨"json", fun _ v => ⟨v, false, some (.wrap "parse" .ErrUnprocessableValue)⟩⟩

/-- A filter that succeeds without redacting. -/
def passThrough : Filter :=
  ⟨"cookie", fun _ v => ⟨v, false, none⟩⟩

/-- A filter that redacts every value to a fixed marker. -/
def redactsAll : Filter :=
  ⟨"urlencoded", fun _ _ => ⟨.string "***", true, none⟩⟩

/-- A batch of one resource spans entry with two spans and three attributes. -/
def sampleTraces : Traces :=
  ⟨[⟨[("resource-attr", .string "resource-attr-val-1")],
      [⟨[⟨"operationA", [("a", .string "1"), ("b", .int 2)]⟩, ⟨"operationB", [("c", .bool true)]⟩]⟩]⟩]⟩

/-! ## Sample configuration -/

/-- A two-rule key list and a one-rule value list. -/
def sampleConfig : Config :=
  { KeyRegExs := [⟨"^authorization$", 1, "auth-token"⟩, ⟨"^password$", 1, "password"⟩],
    ValueRegExs := [⟨"[0-9]+-[0-9]+-[0-9]+", 2, "ssn"⟩],
    RedactStrategy := 1 }

/-- Filter packages whose matcher is the record of the three arguments it was built
from, and whose matcher construction fails when there is no key rule and no value
rule. Each filter is named after its package and the number of key and value rules
of its matcher. -/
def recordingPackages : FilterPackages (List Regex × List Regex × Nat) :=
  { NewMatcher := fun ks vs d => if ks.length + vs.length = 0 then .error "no rules" else .ok (ks, vs, d),
    keyvalueNewFilter := fun m => ⟨"keyvalue", fun _ v => ⟨v, decide (m.1.length = 2), none⟩⟩,
    cookieNewFilter := fun m => ⟨"cookie", fun _ v => ⟨v, decide (m.2.1.length = 1), none⟩⟩,
    urlencodedNewFilter := fun m => ⟨"urlencoded", fun _ v => ⟨v, decide (m.2.2 = 1), none⟩⟩,
    jsonNewFilter := fun _ => ⟨"json", fun _ v => ⟨v, false, some .ErrUnprocessableValue⟩⟩ }

/-! ## tenantidprocessor -/

/-- A gRPC `metadata.MD`, the Go map from header name to values, as the list of its
entries; the first entry with a name is the one the map holds. -/
abbrev MD := List (String × List String)

/-- The map update `md[k] = append(md[k], vals...)` on an already lower-cased
name `k`. -/
def MD.appendAt : MD → String → List String → MD
  | [], k, vals => [(k, vals)]
  | (k', vs) :: rest, k, vals =>
    if k' = k then (k', vs ++ vals) :: rest else (k', vs) :: MD.appendAt rest k vals

/-- The method `md.Get(k)`: lower-cases the name with `strings.ToLower`, then reads
the map; no values when the name is absent. The function `strings.ToLower` belongs
to the Go library and is the parameter `lower`. -/
def MD.Get (md : MD) (lower : String → String) (k : String) : List String :=
  match List.lookup (lower k) md with
  | some vs => vs
  | none => []

/-- The function `metadata.New(map[string]string)`: for every pair, lower-cases the
name and appends the value to the entry of that name. -/
def MD.New (lower : String → String) (m : List (String × String)) : MD :=
  m.foldl (fun md kv => MD.appendAt md (lower kv.1) [kv.2]) []

/-- The method `md.Append(k, vals...)`: nothing without values; else lower-cases
the name and appends the values to the entry of that name. -/
def MD.Append (md : MD) (lower : String → String) (k : String) (vals : List String) : MD :=
  if vals.isEmpty then md else MD.appendAt md (lower k) vals

/-- Lower-casing of the letters `A` to `Z`, every other character kept: what
`strings.ToLower` does on ASCII names. Used to run the metadata operations on
sample headers. -/
def asciiToLower (s : String) : String :=
  ⟨s.data.map fun c => if 65 ≤ c.toNat ∧ c.toNat ≤ 90 then Char.ofNat (c.toNat + 32) else c⟩

/-- A `context.Context` as far as `metadata.FromIncomingContext` reads it. -/
structure Context where
  incomingMetadata : Option MD

/-- The context `context.Background()`: no incoming metadata. -/
def Context.Background : Context := ⟨none⟩

/-- The function `metadata.NewIncomingContext(ctx, md)`. -/
def NewIncomingContext (_ctx : Context) (md : MD) : Context := ⟨some md⟩

/-- The method `AttributeMap.Get(key)`: the value of the first entry with the key. -/
def AttributeMap.Get : AttributeMap → String → Option AttributeValue
  | [], _ => none
  | (k', a) :: rest, k => if k' = k then some a else AttributeMap.Get rest k

/-- The method `AttributeMap.UpsertString(key, v)`: the entry found by `Get` takes the
string value, and a new entry is added when there is none. -/
def AttributeMap.UpsertString : AttributeMap → String → String → AttributeMap
  | [], k, v => [(k, .string v)]
  | (k', a) :: rest, k, v =>
    if k' = k then (k', .string v) :: rest else (k', a) :: AttributeMap.UpsertString rest k v

/-- The struct `processor` of the tenant-ID processor, as the tests build it (the
logger is `zap.NewNop()`). -/
structure processor where
  tenantIDHeaderName : String
  tenantIDAttributeKey : String

/-- Modelled from the spec: the stamping step of the tenant-ID processor, whose source
is not part of the tree. The spec says the component "stamps a tenant attribute
from request metadata"; the tests find the attribute on every span, with string
type. One span gets the attribute. -/
def processor.stampSpan (p : processor) (tenantID : String) (s : Span) : Span :=
  { s with attributes := AttributeMap.UpsertString s.attributes p.tenantIDAttributeKey tenantID }

/-- Modelled from the spec: the stamping step of the tenant-ID processor over a whole
batch: every span of every instrumentation library of every resource spans entry
gets the attribute. -/
def processor.addTenantIDToSpans (p : processor) (traces : Traces) (tenantID : String) : Traces :=
  ⟨traces.resourceSpans.map fun rs =>
    { rs with instrumentationLibrarySpans :=
        rs.instrumentationLibrarySpans.map fun ils =>
          { ils with spans := ils.spans.map (p.stampSpan tenantID) } }⟩

/-- Modelled from the spec: the method `processor.ProcessTraces` of the tenant-ID
processor, whose source is not part of the tree. The spec describes the component
as "single string extraction and validation" that "stamps a tenant attribute from
request metadata"; the tests pin its three failures by a fragment of the error
message and its success by the stamped spans. The header values are read with
`md.Get`, which lower-cases the configured header name through `lower`. The error
is the fragment the tests look for; the batch returned beside an error is not
observed by the tests and is left out. -/
def processor.ProcessTraces (p : processor) (lower : String → String) (ctx : Context)
    (traces : Traces) : Except String Traces :=
  match ctx.incomingMetadata with
  | none => .error "could not extract headers"
  | some md =>
    match md.Get lower p.tenantIDHeaderName with
    | [] => .error "missing header"
    | [tenantID] => .ok (p.addTenantIDToSpans traces tenantID)
    | _ :: _ :: _ => .error "multiple tenant ID headers"

/-- The loop over `k` of the test helper `assertTenantAttributeExists`: `none` when
an assertion fails, else the count so far. -/
def assertSpans (tenantAttrKey tenantID : String) : List Span → Nat → Option Nat
  | [], n => some n
  | span :: rest, n =>
    match AttributeMap.Get span.attributes tenantAttrKey with
    | none => none
    | some tenantAttr =>
      if tenantAttr.Type = .STRING ∧ tenantAttr.StringVal = tenantID then
        assertSpans tenantAttrKey tenantID rest (n + 1)
      else none

/-- The loop over `j` of `assertTenantAttributeExists`. -/
def assertILS (tenantAttrKey tenantID : String) :
    List InstrumentationLibrarySpans → Nat → Option Nat
  | [], n => some n
  | ils :: rest, n =>
    match assertSpans tenantAttrKey tenantID ils.spans n with
    | none => none
    | some n' => assertILS tenantAttrKey tenantID rest n'

/-- The loop over `i` of `assertTenantAttributeExists`. -/
def assertResourceSpans (tenantAttrKey tenantID : String) : List ResourceSpans → Nat → Option Nat
  | [], n => some n
  | rs :: rest, n =>
    match assertILS tenantAttrKey tenantID rs.instrumentationLibrarySpans n with
    | none => none
    | some n' => assertResourceSpans tenantAttrKey tenantID rest n'

/-- The test helper `assertTenantAttributeExists`: the number of spans visited, all
found to carry the attribute with string type and the tenant ID; `none` when one
of its assertions fails. -/
def assertTenantAttributeExists (trace : Traces) (tenantAttrKey tenantID : String) : Option Nat :=
  assertResourceSpans tenantAttrKey tenantID trace.resourceSpans 0

/-- The tenant ID of the tests. -/
def testTenantID : String := "jdoe"

/-- A processor whose configured header name is in mixed case. -/
def sampleProcessor : processor := ⟨"X-Tenant-ID", "tenant-id"⟩

/-! ## Facts about the filter loop -/

theorem Trail.append_empty (a : Trail) : a.append Trail.empty = a := by
  simp [Trail.append, Trail.empty]

/-- The loop only extends the trail it is given, and what it adds and the value it
leaves do not depend on that trail. -/
theorem filterLoop_trail (key : String) (fs : List Filter) (i : Nat) (v : AttributeValue)
    (tr : Trail) :
    filterLoop key fs i v tr
      = ((filterLoop key fs i v Trail.empty).1,
          tr.append (filterLoop key fs i v Trail.empty).2) := by
  induction fs generalizing i v tr with
  | nil => simp [filterLoop, Trail.append_empty]
  | cons f rest ih =>
    have step : ∀ (w : AttributeValue) (es : List LogEntry) (c : Call),
        filterLoop key rest (i + 1) w ⟨tr.log ++ es, tr.calls ++ [c]⟩
          = ((filterLoop key rest (i + 1) w ⟨es, [c]⟩).1,
              tr.append (filterLoop key rest (i + 1) w ⟨es, [c]⟩).2) := by
      intro w es c
      rw [ih (i + 1) w ⟨tr.log ++ es, tr.calls ++ [c]⟩, ih (i + 1) w ⟨es, [c]⟩]
      simp [Trail.append, List.append_assoc]
    simp only [filterLoop, Trail.empty, List.nil_append]
    cases (f.RedactAttribute key v).err with
    | some e =>
      by_cases hu : e.isUnprocessableValue = true
      · simp only [hu, if_true]
        exact step _ _ _
      · simp only [hu, if_false]
        exact step _ _ _
    | none =>
      by_cases hr : (f.RedactAttribute key v).isRedacted = true
      · simp [hr, Trail.append]
      · simp only [hr, if_false]
        have := step (f.RedactAttribute key v).value [] ⟨i, key, v⟩
        simpa using this

/-- The calls of the loop from an empty trail: the call of the first filter, then,
unless that call stops the loop, the calls of the rest on the value it left. -/
theorem filterLoop_calls_cons (key : String) (f : Filter) (rest : List Filter) (i : Nat)
    (v : AttributeValue) :
    (filterLoop key (f :: rest) i v Trail.empty).2.calls
      = ⟨i, key, v⟩ ::
          (if (f.RedactAttribute key v).stops then []
           else (filterLoop key rest (i + 1) (f.RedactAttribute key v).value Trail.empty).2.calls) := by
  have step : ∀ (w : AttributeValue) (es : List LogEntry),
      (filterLoop key rest (i + 1) w ⟨es, [⟨i, key, v⟩]⟩).2.calls
        = ⟨i, key, v⟩ :: (filterLoop key rest (i + 1) w ⟨[], []⟩).2.calls := by
    intro w es
    rw [filterLoop_trail key rest (i + 1) w ⟨es, [⟨i, key, v⟩]⟩]
    simp [Trail.append, Trail.empty]
  simp only [filterLoop, RedactResult.stops, Trail.empty, List.nil_append]
  cases (f.RedactAttribute key v).err with
  | some e =>
    by_cases hu : e.isUnprocessableValue = true
    · simp only [hu, if_true]
      simpa using step _ _
    · simp only [hu, if_false]
      simpa using step _ _
  | none =>
    by_cases hr : (f.RedactAttribute key v).isRedacted = true
    · simp [hr]
    · simp only [hr, if_false]
      simpa using step _ _

/-- Calls are numbered consecutively from the starting position, carry the key of
the attribute, and there are no more calls than filters. -/
theorem filterLoop_calls_idx (key : String) (fs : List Filter) (i : Nat) (v : AttributeValue) :
    (filterLoop key fs i v Trail.empty).2.calls.length ≤ fs.length ∧
    ∀ n c, (filterLoop key fs i v Trail.empty).2.calls[n]? = some c →
      c.idx = i + n ∧ c.key = key := by
  induction fs generalizing i v with
  | nil => simp [filterLoop, Trail.empty]
  | cons f rest ih =>
    rw [filterLoop_calls_cons]
    by_cases hs : (f.RedactAttribute key v).stops = true
    · simp only [hs, if_true]
      refine ⟨by simp, ?_⟩
      intro n c hc
      cases n with
      | zero => simp at hc; subst hc; simp
      | succ m => simp at hc
    · simp only [hs, Bool.false_eq_true, if_false]
      obtain ⟨hlen, hidx⟩ := ih (i + 1) (f.RedactAttribute key v).value
      refine ⟨by simpa using hlen, ?_⟩
      intro n c hc
      cases n with
      | zero => simp at hc; subst hc; simp
      | succ m =>
        simp only [List.getElem?_cons_succ] at hc
        obtain ⟨h1, h2⟩ := hidx m c hc
        exact ⟨by omega, h2⟩

/-- The first filter, when there is one, is called with the value the attribute
holds. -/
theorem filterLoop_calls_head (key : String) (f : Filter) (rest : List Filter) (i : Nat)
    (v : AttributeValue) :
    (filterLoop key (f :: rest) i v Trail.empty).2.calls[0]? = some ⟨i, key, v⟩ := by
  rw [filterLoop_calls_cons]; simp

/-- A call that returns a nil error with `redacted = true` is the last call of the
loop. -/
theorem filterLoop_stops_last (key : String) (fs : List Filter) (i : Nat) (v : AttributeValue) :
    ∀ n c f, (filterLoop key fs i v Trail.empty).2.calls[n]? = some c → fs[n]? = some f →
      (f.RedactAttribute key c.value).stops = true →
      (filterLoop key fs i v Trail.empty).2.calls.length = n + 1 := by
  induction fs generalizing i v with
  | nil => intro n c f _ hf; simp at hf
  | cons g rest ih =>
    intro n c f hc hf hstop
    rw [filterLoop_calls_cons] at hc ⊢
    cases n with
    | zero =>
      simp at hc hf
      subst hc; subst hf
      simp [hstop]
    | succ m =>
      simp only [List.getElem?_cons_succ] at hc hf
      by_cases hs : (g.RedactAttribute key v).stops = true
      · simp [hs] at hc
      · simp only [hs, Bool.false_eq_true, if_false] at hc ⊢
        have := ih (i + 1) (g.RedactAttribute key v).value m c f hc hf hstop
        simp [this]

/-- A call that does not return a nil error with `redacted = true` is followed by
the call of the next filter, if there is one, on the value the call left. -/
theorem filterLoop_continues (key : String) (fs : List Filter) (i : Nat) (v : AttributeValue) :
    ∀ n c f g, (filterLoop key fs i v Trail.empty).2.calls[n]? = some c → fs[n]? = some f →
      (f.RedactAttribute key c.value).stops = false → fs[n + 1]? = some g →
      (filterLoop key fs i v Trail.empty).2.calls[n + 1]?
        = some ⟨i + n + 1, key, (f.RedactAttribute key c.value).value⟩ := by
  induction fs generalizing i v with
  | nil => intro n c f g _ hf; simp at hf
  | cons h rest ih =>
    intro n c f g hc hf hstop hg
    rw [filterLoop_calls_cons] at hc ⊢
    cases n with
    | zero =>
      simp at hc hf
      subst hc; subst hf
      simp only [List.getElem?_cons_succ] at hg ⊢
      simp only [hstop, Bool.false_eq_true, if_false]
      cases rest with
      | nil => simp at hg
      | cons g' rest' => simp [filterLoop_calls_head]
    | succ m =>
      simp only [List.getElem?_cons_succ] at hc hf hg ⊢
      by_cases hs : (h.RedactAttribute key v).stops = true
      · simp [hs] at hc
      · simp only [hs, Bool.false_eq_true, if_false] at hc ⊢
        have := ih (i + 1) (h.RedactAttribute key v).value m c f g hc hf hstop hg
        rw [this]
        congr 2
        omega

/-- The log of the loop from an empty trail: the observation of the first call,
then, unless that call stops the loop, the log of the rest. -/
theorem filterLoop_log_cons (key : String) (f : Filter) (rest : List Filter) (i : Nat)
    (v : AttributeValue) :
    (filterLoop key (f :: rest) i v Trail.empty).2.log
      = specObservation f.Name key (f.RedactAttribute key v) ++
          (if (f.RedactAttribute key v).stops then []
           else (filterLoop key rest (i + 1) (f.RedactAttribute key v).value Trail.empty).2.log) := by
  have step : ∀ (w : AttributeValue) (es : List LogEntry),
      (filterLoop key rest (i + 1) w ⟨es, [⟨i, key, v⟩]⟩).2.log
        = es ++ (filterLoop key rest (i + 1) w ⟨[], []⟩).2.log := by
    intro w es
    rw [filterLoop_trail key rest (i + 1) w ⟨es, [⟨i, key, v⟩]⟩]
    simp [Trail.append, Trail.empty]
  simp only [filterLoop, RedactResult.stops, specObservation, Trail.empty, List.nil_append]
  cases (f.RedactAttribute key v).err with
  | some e =>
    by_cases hu : e.isUnprocessableValue = true
    · simp only [hu, if_true]
      simpa using step _ _
    · simp only [hu, if_false]
      simpa using step _ _
  | none =>
    by_cases hr : (f.RedactAttribute key v).isRedacted = true
    · simp [hr]
    · simp only [hr, if_false]
      simpa using step _ _

/-- The log of the loop is the concatenation, call by call, of the observations
asked for. -/
theorem filterLoop_log_eq (key : String) (fs0 fs : List Filter) (i : Nat) (v : AttributeValue)
    (hdrop : fs0.drop i = fs) :
    (filterLoop key fs i v Trail.empty).2.log
      = (filterLoop key fs i v Trail.empty).2.calls.flatMap (callObservation fs0) := by
  induction fs generalizing i v with
  | nil => simp [filterLoop, Trail.empty]
  | cons f rest ih =>
    have hf : fs0[i]? = some f := by
      have := congrArg (fun l => l[0]?) hdrop
      simpa using this
    have hrest : fs0.drop (i + 1) = rest := by
      have := congrArg List.tail hdrop
      simpa using this
    rw [filterLoop_log_cons, filterLoop_calls_cons]
    simp only [List.flatMap_cons, callObservation, hf]
    congr 1
    by_cases hs : (f.RedactAttribute key v).stops = true
    · simp [hs]
    · simp only [hs, Bool.false_eq_true, if_false]
      exact ih (i + 1) _ hrest

/-! ## Facts about the walk over the batch -/

theorem redactOne_eq (p : piiFilterProcessor) (kv : String × AttributeValue) (tr : Trail) :
    redactOne p kv.1 kv.2 tr
      = ((attrOut p kv).2, ⟨tr.log ++ attrLog p kv, tr.calls ++ attrCalls p kv⟩) := by
  unfold redactOne attrOut attrLog attrCalls redactOne
  rw [filterLoop_trail]
  rfl

theorem forEachAttribute_eq (p : piiFilterProcessor) (attrs : AttributeMap) (tr : Trail) :
    forEachAttribute p attrs tr
      = (attrs.map (attrOut p),
          ⟨tr.log ++ attrs.flatMap (attrLog p), tr.calls ++ attrs.flatMap (attrCalls p)⟩) := by
  induction attrs generalizing tr with
  | nil => simp [forEachAttribute]
  | cons kv rest ih =>
    obtain ⟨k, v⟩ := kv
    simp only [forEachAttribute]
    rw [redactOne_eq p (k, v) tr]
    simp only [ih]
    simp [attrOut, List.append_assoc]

theorem forEachSpan_eq (p : piiFilterProcessor) (spans : List Span) (tr : Trail) :
    forEachSpan p spans tr
      = (spans.map (spanOut p),
          ⟨tr.log ++ (spans.flatMap fun s => s.attributes).flatMap (attrLog p),
            tr.calls ++ (spans.flatMap fun s => s.attributes).flatMap (attrCalls p)⟩) := by
  induction spans generalizing tr with
  | nil => simp [forEachSpan]
  | cons s rest ih =>
    simp only [forEachSpan, forEachAttribute_eq, ih]
    simp [spanOut, List.append_assoc]

theorem forEachILS_eq (p : piiFilterProcessor) (ilss : List InstrumentationLibrarySpans)
    (tr : Trail) :
    forEachILS p ilss tr
      = (ilss.map (ilsOut p),
          ⟨tr.log ++ ((ilss.flatMap fun ils => ils.spans).flatMap fun s => s.attributes).flatMap
              (attrLog p),
            tr.calls ++ ((ilss.flatMap fun ils => ils.spans).flatMap fun s => s.attributes).flatMap
              (attrCalls p)⟩) := by
  induction ilss generalizing tr with
  | nil => simp [forEachILS]
  | cons ils rest ih =>
    simp only [forEachILS, forEachSpan_eq, ih]
    simp [ilsOut, List.append_assoc]

theorem forEachResourceSpans_eq (p : piiFilterProcessor) (rss : List ResourceSpans)
    (tr : Trail) :
    forEachResourceSpans p rss tr
      = (rss.map (rsOut p),
          ⟨tr.log ++ (rssAttributes rss).flatMap (attrLog p),
            tr.calls ++ (rssAttributes rss).flatMap (attrCalls p)⟩) := by
  induction rss generalizing tr with
  | nil => simp [forEachResourceSpans, rssAttributes]
  | cons rs rest ih =>
    simp only [forEachResourceSpans, forEachILS_eq, ih]
    simp [rsOut, rssAttributes, List.append_assoc]

/-- The batch `ProcessTraces` returns, the lines it logs and the calls it makes,
attribute by attribute in walking order. -/
theorem ProcessTraces_eq (p : piiFilterProcessor) (td : Traces) :
    p.ProcessTraces td
      = { td := ⟨td.resourceSpans.map (rsOut p)⟩,
          err := none,
          trail := ⟨td.allAttributes.flatMap (attrLog p), td.allAttributes.flatMap (attrCalls p)⟩ } := by
  simp [piiFilterProcessor.ProcessTraces, forEachResourceSpans_eq, Trail.empty,
    Traces.allAttributes, Traces.allSpans, rssAttributes]

/-! ## The filter chain on one attribute -/

/-- On one attribute the calls are numbered 0, 1, 2, ... in list order, there are
no more calls than filters, and every call carries the key of the attribute. -/
theorem chain_order_facts (p : piiFilterProcessor) (key : String) (v : AttributeValue) :
    (attrCalls p (key, v)).map Call.idx = List.range (attrCalls p (key, v)).length ∧
      (attrCalls p (key, v)).length ≤ p.filters.length ∧
      ∀ c ∈ attrCalls p (key, v), c.key = key := by
  have hidx := filterLoop_calls_idx key p.filters 0 v
  simp only [attrCalls, redactOne] at *
  refine ⟨?_, hidx.1, ?_⟩
  · apply List.ext_getElem?
    intro n
    cases hc : (filterLoop key p.filters 0 v Trail.empty).2.calls[n]? with
    | none =>
      have hn := List.getElem?_eq_none_iff.mp hc
      simp [hc, List.getElem?_eq_none_iff.mpr (by simpa using hn : (List.range _).length ≤ n)]
    | some c =>
      have hn : n < (filterLoop key p.filters 0 v Trail.empty).2.calls.length := by
        by_contra hge
        rw [List.getElem?_eq_none_iff.mpr (by omega)] at hc
        exact Option.noConfusion hc
      have := (hidx.2 n c hc).1
      simp [hc, List.getElem?_range hn, this]
  · intro c hc
    obtain ⟨n, hn⟩ := List.mem_iff_getElem?.mp hc
    exact (hidx.2 n c hn).2

/-- Claim C1 as stated fails: a filter that reports `redacted = true` together with
an error does not stop the loop, the filter after it is invoked for the same
attribute. -/
theorem chain_redacted_flag_alone_does_not_stop :
    (redactsWithError.RedactAttribute "k" (.string "s")).isRedacted = true ∧
    (attrCalls ⟨[redactsWithError, passThrough]⟩ ("k", .string "s")).map Call.idx = [0, 1] := by
  constructor <;> rfl

/-- Claim C1, amended: on one attribute the filters are invoked in list order, each at
most once, starting with the first; a call that returns a nil error with
`redacted = true` is the last call, so at most one call redacts successfully; a call
that succeeds with `redacted = false` is followed by the call of the next filter on
the value it left. -/
theorem chain_stops_at_first_successful_redaction (p : piiFilterProcessor) (key : String)
    (v : AttributeValue) :
    ((attrCalls p (key, v)).map Call.idx = List.range (attrCalls p (key, v)).length ∧
      (attrCalls p (key, v)).length ≤ p.filters.length ∧
      ∀ c ∈ attrCalls p (key, v), c.key = key) ∧
    (∀ n c f, (attrCalls p (key, v))[n]? = some c → p.filters[n]? = some f →
      (f.RedactAttribute key c.value).err = none →
      (f.RedactAttribute key c.value).isRedacted = true →
      (attrCalls p (key, v)).length = n + 1) ∧
    (∀ (m n : Nat) (cm cn : Call) (fm fn : Filter), (attrCalls p (key, v))[m]? = some cm → p.filters[m]? = some fm →
      (attrCalls p (key, v))[n]? = some cn → p.filters[n]? = some fn →
      (fm.RedactAttribute key cm.value).err = none →
      (fm.RedactAttribute key cm.value).isRedacted = true →
      (fn.RedactAttribute key cn.value).err = none →
      (fn.RedactAttribute key cn.value).isRedacted = true → m = n) ∧
    (∀ n c f g, (attrCalls p (key, v))[n]? = some c → p.filters[n]? = some f →
      (f.RedactAttribute key c.value).err = none →
      (f.RedactAttribute key c.value).isRedacted = false →
      p.filters[n + 1]? = some g →
      (attrCalls p (key, v))[n + 1]?
        = some ⟨n + 1, key, (f.RedactAttribute key c.value).value⟩) := by
  have horder := chain_order_facts p key v
  have hstop := filterLoop_stops_last key p.filters 0 v
  have hcont := filterLoop_continues key p.filters 0 v
  simp only [attrCalls, redactOne] at *
  refine ⟨horder, ?_, ?_, ?_⟩
  · intro n c f hc hf he hr
    exact hstop n c f hc hf (by simp [RedactResult.stops, he, hr])
  · intro m n cm cn fm fn hcm hfm hcn hfn hem hrm hen hrn
    have h1 := hstop m cm fm hcm hfm (by simp [RedactResult.stops, hem, hrm])
    have h2 := hstop n cn fn hcn hfn (by simp [RedactResult.stops, hen, hrn])
    omega
  · intro n c f g hc hf he hr hg
    have := hcont n c f g hc hf (by simp [RedactResult.stops, hr]) hg
    simpa using this

theorem chain_stops_at_first_successful_redaction_witness :
    (attrCalls ⟨[passThrough, redactsAll, cannotParse]⟩ ("k", .string "s")).length = 1 + 1 :=
  (chain_stops_at_first_successful_redaction ⟨[passThrough, redactsAll, cannotParse]⟩ "k"
    (.string "s")).2.1 1 ⟨1, "k", .string "s"⟩ redactsAll rfl rfl rfl rfl

/-- Claim C2: an error returned by a filter (`ErrUnprocessableValue` or any other)
does not abort the loop: the next filter in the list is invoked for the same
attribute, and the filter at position `i` is invoked whenever every call before it
either returned an error or succeeded with `redacted = false`. -/
theorem chain_continues_after_error (p : piiFilterProcessor) (key : String)
    (v : AttributeValue) :
    (∀ n c f g e, (attrCalls p (key, v))[n]? = some c → p.filters[n]? = some f →
      (f.RedactAttribute key c.value).err = some e →
      p.filters[n + 1]? = some g →
      (attrCalls p (key, v))[n + 1]?
        = some ⟨n + 1, key, (f.RedactAttribute key c.value).value⟩) ∧
    (∀ i, i < p.filters.length →
      (∀ m c f, m < i → (attrCalls p (key, v))[m]? = some c → p.filters[m]? = some f →
        (f.RedactAttribute key c.value).err ≠ none ∨
          ((f.RedactAttribute key c.value).err = none ∧
            (f.RedactAttribute key c.value).isRedacted = false)) →
      ∃ c, (attrCalls p (key, v))[i]? = some c ∧ c.idx = i ∧ c.key = key) := by
  have hcont := filterLoop_continues key p.filters 0 v
  simp only [attrCalls, redactOne] at *
  constructor
  · intro n c f g e hc hf he hg
    have := hcont n c f g hc hf (by simp [RedactResult.stops, he]) hg
    simpa using this
  · intro i
    induction i with
    | zero =>
      intro hlt _
      cases hfs : p.filters with
      | nil => simp [hfs] at hlt
      | cons f rest => exact ⟨_, filterLoop_calls_head key f rest 0 v, rfl, rfl⟩
    | succ j ih =>
      intro hlt hprev
      obtain ⟨c, hc, -, -⟩ := ih (by omega) (fun m c f hm => hprev m c f (by omega))
      have hf : p.filters[j]? = some (p.filters[j]) := List.getElem?_eq_getElem (by omega)
      have hg : p.filters[j + 1]? = some (p.filters[j + 1]) := List.getElem?_eq_getElem hlt
      have hns : (p.filters[j].RedactAttribute key c.value).stops = false := by
        rcases hprev j c _ (by omega) hc hf with h | ⟨_, h⟩
        · cases he : (p.filters[j].RedactAttribute key c.value).err with
          | none => exact absurd he h
          | some e => simp [RedactResult.stops, he]
        · simp [RedactResult.stops, h]
      have := hcont j c _ _ hc hf hns hg
      exact ⟨_, this, by simp, rfl⟩

theorem chain_continues_after_error_witness :
    ∃ c, (attrCalls ⟨[cannotParse, redactsWithError, passThrough]⟩ ("k", .string "s"))[2]? = some c ∧
      c.idx = 2 ∧ c.key = "k" :=
  (chain_continues_after_error ⟨[cannotParse, redactsWithError, passThrough]⟩ "k"
    (.string "s")).2 2 (by decide) (by
      intro m c f hm hc hf
      left
      have hm' : m = 0 ∨ m = 1 := by omega
      rcases hm' with rfl | rfl
      · simp at hf; subst hf; simp [cannotParse]
      · simp at hf; subst hf; simp [redactsWithError])

/-- Claim C10: when a filter returns `redacted = true` together with a non-nil error,
the flag is not consulted: the loop writes the failure line for that filter and no
redaction line, does not stop, and goes on with the rest of the filters on the
same attribute, so the next filter is invoked. -/
theorem redacted_with_error_is_a_failure (key : String) (f : Filter) (rest : List Filter)
    (i : Nat) (v : AttributeValue) (tr : Trail) (e : FilterError)
    (herr : (f.RedactAttribute key v).err = some e)
    (_hred : (f.RedactAttribute key v).isRedacted = true) :
    filterLoop key (f :: rest) i v tr
      = filterLoop key rest (i + 1) (f.RedactAttribute key v).value
          ⟨tr.log ++ [if e.isUnprocessableValue then ⟨.debug, .failedUnsuitable f.Name key⟩
              else ⟨.error, .failedError f.Name key e⟩],
            tr.calls ++ [⟨i, key, v⟩]⟩ ∧
    (∀ l ∈ specObservation f.Name key (f.RedactAttribute key v), l.msg.isRedaction = false) ∧
    (filterLoop key (f :: rest) i v tr).2.log
      = tr.log ++ ([if e.isUnprocessableValue then ⟨.debug, .failedUnsuitable f.Name key⟩
              else ⟨.error, .failedError f.Name key e⟩] ++
          (filterLoop key rest (i + 1) (f.RedactAttribute key v).value Trail.empty).2.log) ∧
    (∀ g rest', rest = g :: rest' →
      ((filterLoop key (f :: rest) i v tr).2.calls.drop tr.calls.length)[1]?
        = some ⟨i + 1, key, (f.RedactAttribute key v).value⟩) := by
  have hstop : (f.RedactAttribute key v).stops = false := by
    simp [RedactResult.stops, herr]
  refine ⟨?_, ?_, ?_, ?_⟩
  · simp only [filterLoop, herr]
    by_cases hu : e.isUnprocessableValue = true <;> simp [hu]
  · intro l hl
    simp only [specObservation, herr] at hl
    by_cases hu : e.isUnprocessableValue = true
    · simp [hu] at hl; subst hl; rfl
    · simp [hu] at hl; subst hl; rfl
  · rw [filterLoop_trail]
    simp only [Trail.append, filterLoop_log_cons, hstop, Bool.false_eq_true, if_false,
      specObservation, herr]
    by_cases hu : e.isUnprocessableValue = true <;> simp [hu]
  · intro g rest' hrest
    subst hrest
    rw [filterLoop_trail]
    simp only [Trail.append, List.drop_left, filterLoop_calls_cons, hstop,
      Bool.false_eq_true, if_false]
    simp

theorem redacted_with_error_is_a_failure_witness :
    (redactsWithError.RedactAttribute "k" (.string "s")).isRedacted = true ∧
    ((filterLoop "k" [redactsWithError, redactsAll] 0 (.string "s") Trail.empty).2.calls.drop
        Trail.empty.calls.length)[1]?
      = some ⟨0 + 1, "k", (redactsWithError.RedactAttribute "k" (.string "s")).value⟩ :=
  ⟨rfl, (redacted_with_error_is_a_failure "k" redactsWithError [redactsAll] 0 (.string "s")
    Trail.empty (.other "boom") rfl rfl).2.2.2 redactsAll [] rfl⟩

/-! ## The walk over the batch -/

/-- Every call recorded for an attribute is at a position of the filter list. -/
theorem attrCalls_idx_lt (p : piiFilterProcessor) (kv : String × AttributeValue) :
    ∀ c ∈ attrCalls p kv, c.idx < p.filters.length := by
  intro c hc
  obtain ⟨n, hn⟩ := List.mem_iff_getElem?.mp hc
  have hidx := filterLoop_calls_idx kv.1 p.filters 0 kv.2
  simp only [attrCalls, redactOne] at hn
  have h1 := (hidx.2 n c hn).1
  have h2 : n < (filterLoop kv.1 p.filters 0 kv.2 Trail.empty).2.calls.length := by
    by_contra hge
    rw [List.getElem?_eq_none_iff.mpr (by omega)] at hn
    exact Option.noConfusion hn
  omega

/-- Claim C5: the log of `ProcessTraces` is, call by call and in order, the
observation asked for each filter invocation: exactly one line carrying the filter
name and the attribute key, at debug severity when the error is or wraps
`ErrUnprocessableValue`, at error severity for any other error, at debug severity for
a successful redaction, and no line for a call that succeeds with
`redacted = false`. -/
theorem log_is_one_observation_per_call (p : piiFilterProcessor) (td : Traces) :
    (p.ProcessTraces td).trail.log
      = (p.ProcessTraces td).trail.calls.flatMap (callObservation p.filters) ∧
    ∀ c ∈ (p.ProcessTraces td).trail.calls, ∃ f, p.filters[c.idx]? = some f ∧
      (callObservation p.filters c).length ≤ 1 ∧
      (∀ l ∈ callObservation p.filters c, l.msg.filterName = f.Name ∧ l.msg.key = c.key) ∧
      (∀ e, (f.RedactAttribute c.key c.value).err = some e → e.isUnprocessableValue = true →
        callObservation p.filters c = [⟨.debug, .failedUnsuitable f.Name c.key⟩]) ∧
      (∀ e, (f.RedactAttribute c.key c.value).err = some e → e.isUnprocessableValue = false →
        callObservation p.filters c = [⟨.error, .failedError f.Name c.key e⟩]) ∧
      ((f.RedactAttribute c.key c.value).err = none →
        (f.RedactAttribute c.key c.value).isRedacted = true →
        callObservation p.filters c = [⟨.debug, .redacted c.key f.Name⟩]) ∧
      ((f.RedactAttribute c.key c.value).err = none →
        (f.RedactAttribute c.key c.value).isRedacted = false →
        callObservation p.filters c = []) := by
  rw [ProcessTraces_eq]
  constructor
  · simp only [List.flatMap_assoc]
    congr 1
    funext kv
    exact filterLoop_log_eq kv.1 p.filters p.filters 0 kv.2 rfl
  · intro c hc
    simp only [List.mem_flatMap] at hc
    obtain ⟨kv, -, hkv⟩ := hc
    have hlt := attrCalls_idx_lt p kv c hkv
    refine ⟨p.filters[c.idx], List.getElem?_eq_getElem hlt, ?_, ?_, ?_, ?_, ?_, ?_⟩
    · simp only [callObservation, List.getElem?_eq_getElem hlt, specObservation]
      cases (p.filters[c.idx].RedactAttribute c.key c.value).err with
      | some e => by_cases hu : e.isUnprocessableValue = true <;> simp [hu]
      | none =>
        by_cases hr : (p.filters[c.idx].RedactAttribute c.key c.value).isRedacted = true <;>
          simp [hr]
    · intro l hl
      simp only [callObservation, List.getElem?_eq_getElem hlt, specObservation] at hl
      cases he : (p.filters[c.idx].RedactAttribute c.key c.value).err with
      | some e =>
        simp only [he] at hl
        by_cases hu : e.isUnprocessableValue = true
        · simp [hu] at hl; subst hl; exact ⟨rfl, rfl⟩
        · simp [hu] at hl; subst hl; exact ⟨rfl, rfl⟩
      | none =>
        simp only [he] at hl
        by_cases hr : (p.filters[c.idx].RedactAttribute c.key c.value).isRedacted = true
        · simp [hr] at hl; subst hl; exact ⟨rfl, rfl⟩
        · simp [hr] at hl
    · intro e he hu
      simp [callObservation, List.getElem?_eq_getElem hlt, specObservation, he, hu]
    · intro e he hu
      simp [callObservation, List.getElem?_eq_getElem hlt, specObservation, he, hu]
    · intro he hr
      simp [callObservation, List.getElem?_eq_getElem hlt, specObservation, he, hr]
    · intro he hr
      simp [callObservation, List.getElem?_eq_getElem hlt, specObservation, he, hr]

theorem log_is_one_observation_per_call_witness :
    (piiFilterProcessor.ProcessTraces ⟨[cannotParse, redactsWithError, passThrough, redactsAll]⟩
        ⟨[⟨[], [⟨[⟨"op", [("k", .string "s")]⟩]⟩]⟩]⟩).trail.log
      = [⟨.debug, .failedUnsuitable "json" "k"⟩, ⟨.error, .failedError "keyvalue" "k" (.other "boom")⟩,
          ⟨.debug, .redacted "k" "urlencoded"⟩] :=
  (log_is_one_observation_per_call ⟨[cannotParse, redactsWithError, passThrough, redactsAll]⟩
    ⟨[⟨[], [⟨[⟨"op", [("k", .string "s")]⟩]⟩]⟩]⟩).1.trans rfl

/-- The calls of the first filter among the calls recorded for one attribute: one
call, with the key and the value of the attribute. -/
theorem attrCalls_first (p : piiFilterProcessor) (hne : p.filters ≠ [])
    (kv : String × AttributeValue) :
    ((attrCalls p kv).filter fun c => c.idx == 0).map (fun c => (c.key, c.value)) = [kv] := by
  obtain ⟨k, v⟩ := kv
  cases hfs : p.filters with
  | nil => exact absurd hfs hne
  | cons f rest =>
    simp only [attrCalls, redactOne, hfs]
    rw [filterLoop_calls_cons]
    have hrest : ∀ c ∈ (if (f.RedactAttribute k v).stops then []
        else (filterLoop k rest (0 + 1) (f.RedactAttribute k v).value Trail.empty).2.calls),
        (c.idx == 0) = false := by
      intro c hc
      by_cases hs : (f.RedactAttribute k v).stops = true
      · simp [hs] at hc
      · simp only [hs, Bool.false_eq_true, if_false] at hc
        obtain ⟨n, hn⟩ := List.mem_iff_getElem?.mp hc
        have := ((filterLoop_calls_idx k rest (0 + 1) _).2 n c hn).1
        simp; omega
    rw [List.filter_cons]
    simp only [beq_self_eq_true, if_true, List.map_cons]
    rw [List.filter_eq_nil_iff.mpr (by intro c hc; simp [hrest c hc])]
    rfl

/-- Claim C6: with a non-empty filter list, the calls `ProcessTraces` makes to the
first filter are, in walking order, exactly one per span attribute of the batch,
with the key and the value of that attribute; so their number is the number of span
attributes in the batch. -/
theorem first_filter_called_once_per_attribute (p : piiFilterProcessor) (td : Traces)
    (hne : p.filters ≠ []) :
    (((p.ProcessTraces td).trail.calls.filter fun c => c.idx == 0).map
        fun c => (c.key, c.value)) = td.allAttributes ∧
    ((p.ProcessTraces td).trail.calls.filter fun c => c.idx == 0).length
      = td.allAttributes.length := by
  have h : (((p.ProcessTraces td).trail.calls.filter fun c => c.idx == 0).map
      fun c => (c.key, c.value)) = td.allAttributes := by
    rw [ProcessTraces_eq]
    simp only [List.filter_flatMap, List.map_flatMap]
    have := attrCalls_first p hne
    simp only [this]
    simp
  refine ⟨h, ?_⟩
  have := congrArg List.length h
  simpa using this

theorem first_filter_called_once_per_attribute_witness :
    ((piiFilterProcessor.ProcessTraces ⟨[passThrough, redactsAll]⟩ sampleTraces).trail.calls.filter
      fun c => c.idx == 0).length = 3 :=
  (first_filter_called_once_per_attribute ⟨[passThrough, redactsAll]⟩ sampleTraces
    (by simp)).2.trans rfl

theorem skeleton_rsOut (p : piiFilterProcessor) (rss : List ResourceSpans) :
    (Traces.mk (rss.map (rsOut p))).skeleton = (Traces.mk rss).skeleton := by
  simp only [Traces.skeleton, List.map_map]
  apply List.map_congr_left
  intro rs _
  simp only [Function.comp, rsOut, List.map_map, Prod.mk.injEq, true_and]
  apply List.map_congr_left
  intro ils _
  simp only [Function.comp, ilsOut, List.map_map]
  apply List.map_congr_left
  intro sp _
  simp [Function.comp, spanOut, attrOut]

theorem allAttributes_rsOut (p : piiFilterProcessor) (rss : List ResourceSpans) :
    (Traces.mk (rss.map (rsOut p))).allAttributes
      = (Traces.mk rss).allAttributes.map (attrOut p) := by
  simp only [Traces.allAttributes, Traces.allSpans, List.flatMap_map, List.map_flatMap,
    List.flatMap_assoc, Function.comp, rsOut, ilsOut, spanOut]

/-- Claim C4: whatever the filters do, `ProcessTraces` returns a nil error together
with the batch it was given: the same resource spans, instrumentation libraries,
spans and attribute keys, each attribute holding the value the filter loop left
in it. -/
theorem ProcessTraces_returns_batch_and_nil (p : piiFilterProcessor) (td : Traces) :
    (p.ProcessTraces td).err = none ∧
    (p.ProcessTraces td).td.skeleton = td.skeleton ∧
    (p.ProcessTraces td).td.allAttributes
      = td.allAttributes.map fun kv => (kv.1, (filterLoop kv.1 p.filters 0 kv.2 Trail.empty).1) := by
  rw [ProcessTraces_eq]
  refine ⟨rfl, skeleton_rsOut p td.resourceSpans, ?_⟩
  exact allAttributes_rsOut p td.resourceSpans

/-! ## Construction of the processor -/

theorem toRegex_foldl (es : List PiiElement) (acc : List Regex) :
    es.foldl
        (fun rs e => rs ++ [{ Pattern := e.Regex, RedactStrategy := e.RedactStrategy, FQN := e.FQN }])
        acc
      = acc ++ es.map fun e => ⟨e.Regex, e.RedactStrategy, e.FQN⟩ := by
  induction es generalizing acc with
  | nil => simp
  | cons e rest ih => simp [List.foldl_cons, ih, List.append_assoc]

theorem toRegex_eq_map (es : List PiiElement) :
    toRegex es = es.map fun e => ⟨e.Regex, e.RedactStrategy, e.FQN⟩ := by
  simp [toRegex, toRegex_foldl]

/-- Claim C3: when matcher construction succeeds, `newPIIFilterProcessor` returns a
processor whose filter list is the four filters KeyValue, Cookie, UrlEncoded, Json in
that order, all built from the one matcher; on every attribute the filters invoked
are the first ones of that list, in that order, starting with KeyValue. -/
theorem newPIIFilterProcessor_filters {M : Type} (pk : FilterPackages M) (cfg : Config)
    (matcher : M)
    (hm : pk.NewMatcher (toRegex cfg.KeyRegExs) (toRegex cfg.ValueRegExs) cfg.RedactStrategy
      = .ok matcher) :
    ∃ p, newPIIFilterProcessor pk cfg = .ok p ∧
      p.filters = [pk.keyvalueNewFilter matcher, pk.cookieNewFilter matcher,
        pk.urlencodedNewFilter matcher, pk.jsonNewFilter matcher] ∧
      ∀ key v, ∃ n, 1 ≤ n ∧ n ≤ 4 ∧
        (attrCalls p (key, v)).map (fun c => p.filters[c.idx]?)
          = ([pk.keyvalueNewFilter matcher, pk.cookieNewFilter matcher,
              pk.urlencodedNewFilter matcher, pk.jsonNewFilter matcher].take n).map some := by
  refine ⟨⟨[pk.keyvalueNewFilter matcher, pk.cookieNewFilter matcher,
    pk.urlencodedNewFilter matcher, pk.jsonNewFilter matcher]⟩, ?_, rfl, ?_⟩
  · simp [newPIIFilterProcessor, hm]
  · intro key v
    generalize hp : (⟨[pk.keyvalueNewFilter matcher, pk.cookieNewFilter matcher,
      pk.urlencodedNewFilter matcher, pk.jsonNewFilter matcher]⟩ : piiFilterProcessor) = p
    have hfs : p.filters = [pk.keyvalueNewFilter matcher, pk.cookieNewFilter matcher,
      pk.urlencodedNewFilter matcher, pk.jsonNewFilter matcher] := by rw [← hp]
    obtain ⟨hidx, hlen, -⟩ := chain_order_facts p key v
    have hhead : (attrCalls p (key, v))[0]? = some ⟨0, key, v⟩ := by
      simp only [attrCalls, redactOne, hfs]
      exact filterLoop_calls_head key _ _ 0 v
    have hpos : 1 ≤ (attrCalls p (key, v)).length := by
      by_contra hlt
      rw [List.getElem?_eq_none_iff.mpr (by omega)] at hhead
      exact Option.noConfusion hhead
    refine ⟨(attrCalls p (key, v)).length, hpos, by simpa [hfs] using hlen, ?_⟩
    have hmap : (attrCalls p (key, v)).map (fun c => p.filters[c.idx]?)
        = ((attrCalls p (key, v)).map Call.idx).map (fun i => p.filters[i]?) := by
      simp [List.map_map, Function.comp]
    rw [hmap, hidx, ← hfs]
    apply List.ext_getElem?
    intro n
    by_cases hn : n < (attrCalls p (key, v)).length
    · have hn' : n < p.filters.length := by omega
      simp [List.getElem?_range hn, List.getElem?_take, hn, List.getElem?_eq_getElem hn']
    · simp [List.getElem?_take, hn, List.getElem?_eq_none_iff.mpr (by simpa using hn :
        (List.range (attrCalls p (key, v)).length).length ≤ n)]

theorem newPIIFilterProcessor_filters_witness :
    ∃ p, newPIIFilterProcessor recordingPackages sampleConfig = .ok p ∧
      p.filters = [recordingPackages.keyvalueNewFilter (toRegex sampleConfig.KeyRegExs,
            toRegex sampleConfig.ValueRegExs, 1),
          recordingPackages.cookieNewFilter (toRegex sampleConfig.KeyRegExs,
            toRegex sampleConfig.ValueRegExs, 1),
          recordingPackages.urlencodedNewFilter (toRegex sampleConfig.KeyRegExs,
            toRegex sampleConfig.ValueRegExs, 1),
          recordingPackages.jsonNewFilter (toRegex sampleConfig.KeyRegExs,
            toRegex sampleConfig.ValueRegExs, 1)] :=
  let ⟨p, h1, h2, _⟩ := newPIIFilterProcessor_filters recordingPackages sampleConfig
    (toRegex sampleConfig.KeyRegExs, toRegex sampleConfig.ValueRegExs, 1) rfl
  ⟨p, h1, h2⟩

/-- Claim C9: `toRegex` keeps the length and the order of the configured rules and
copies `Regex`, `RedactStrategy` and `FQN` of the i-th rule into `Pattern`,
`RedactStrategy` and `FQN` of the i-th result; `newPIIFilterProcessor` hands
`toRegex cfg.KeyRegExs` as first argument (key rules), `toRegex cfg.ValueRegExs` as
second (value rules) and `cfg.RedactStrategy` as third to `NewMatcher`, whatever
`NewMatcher` is, and fails exactly when that call fails. -/
theorem toRegex_preserves_rules (es : List PiiElement) :
    (toRegex es).length = es.length ∧
    (∀ (i : Nat) (e : PiiElement), es[i]? = some e →
      (toRegex es)[i]?
        = some ({ Pattern := e.Regex, RedactStrategy := e.RedactStrategy, FQN := e.FQN } : Regex)) ∧
    (∀ (M : Type) (pk : FilterPackages M) (cfg : Config),
      (∀ m, pk.NewMatcher (toRegex cfg.KeyRegExs) (toRegex cfg.ValueRegExs) cfg.RedactStrategy = .ok m →
        newPIIFilterProcessor pk cfg
          = .ok ⟨[pk.keyvalueNewFilter m, pk.cookieNewFilter m, pk.urlencodedNewFilter m,
              pk.jsonNewFilter m]⟩) ∧
      (∀ err, pk.NewMatcher (toRegex cfg.KeyRegExs) (toRegex cfg.ValueRegExs) cfg.RedactStrategy
          = .error err →
        newPIIFilterProcessor pk cfg = .error ("failed to create regex matcher: " ++ err))) := by
  refine ⟨by simp [toRegex_eq_map], ?_, ?_⟩
  · intro i e he
    simp [toRegex_eq_map, he]
  · intro M pk cfg
    constructor
    · intro m hm
      simp [newPIIFilterProcessor, hm]
    · intro err herr
      simp [newPIIFilterProcessor, herr]

theorem toRegex_preserves_rules_witness :
    (toRegex sampleConfig.KeyRegExs)[1]?
      = some ({ Pattern := "^password$", RedactStrategy := 1, FQN := "password" } : Regex) ∧
    newPIIFilterProcessor recordingPackages sampleConfig
      = .ok ⟨[recordingPackages.keyvalueNewFilter (toRegex sampleConfig.KeyRegExs,
            toRegex sampleConfig.ValueRegExs, 1),
          recordingPackages.cookieNewFilter (toRegex sampleConfig.KeyRegExs,
            toRegex sampleConfig.ValueRegExs, 1),
          recordingPackages.urlencodedNewFilter (toRegex sampleConfig.KeyRegExs,
            toRegex sampleConfig.ValueRegExs, 1),
          recordingPackages.jsonNewFilter (toRegex sampleConfig.KeyRegExs,
            toRegex sampleConfig.ValueRegExs, 1)]⟩ :=
  ⟨(toRegex_preserves_rules sampleConfig.KeyRegExs).2.1 1 ⟨"^password$", 1, "password"⟩ rfl,
    ((toRegex_preserves_rules sampleConfig.KeyRegExs).2.2 _ recordingPackages sampleConfig).1
      (toRegex sampleConfig.KeyRegExs, toRegex sampleConfig.ValueRegExs, 1) rfl⟩

/-! ## The tenant-ID processor -/

theorem Get_UpsertString (m : AttributeMap) (k v : String) :
    AttributeMap.Get (AttributeMap.UpsertString m k v) k = some (.string v) := by
  induction m with
  | nil => simp [AttributeMap.UpsertString, AttributeMap.Get]
  | cons e rest ih =>
    obtain ⟨k', a⟩ := e
    by_cases hk : k' = k
    · simp [AttributeMap.UpsertString, AttributeMap.Get, hk]
    · simp [AttributeMap.UpsertString, AttributeMap.Get, hk, ih]

theorem assertSpans_stamped (p : processor) (v : String) (spans : List Span) (n : Nat) :
    assertSpans p.tenantIDAttributeKey v (spans.map (p.stampSpan v)) n = some (n + spans.length) := by
  induction spans generalizing n with
  | nil => simp [assertSpans]
  | cons s rest ih =>
    simp only [List.map_cons, assertSpans, processor.stampSpan, Get_UpsertString]
    simp only [AttributeValue.Type, AttributeValue.StringVal, and_self, if_true]
    have := ih (n + 1)
    simp only [processor.stampSpan] at this
    rw [this]
    simp only [List.length_cons]
    congr 1
    omega

theorem assertILS_stamped (p : processor) (v : String) (ilss : List InstrumentationLibrarySpans)
    (n : Nat) :
    assertILS p.tenantIDAttributeKey v
        (ilss.map fun ils => { ils with spans := ils.spans.map (p.stampSpan v) }) n
      = some (n + (ilss.flatMap fun ils => ils.spans).length) := by
  induction ilss generalizing n with
  | nil => simp [assertILS]
  | cons ils rest ih =>
    simp only [List.map_cons, assertILS, assertSpans_stamped, ih, List.flatMap_cons,
      List.length_append]
    congr 1
    omega

theorem assertResourceSpans_stamped (p : processor) (v : String) (rss : List ResourceSpans)
    (n : Nat) :
    assertResourceSpans p.tenantIDAttributeKey v (p.addTenantIDToSpans ⟨rss⟩ v).resourceSpans n
      = some (n + (Traces.mk rss).SpanCount) := by
  induction rss generalizing n with
  | nil => simp [assertResourceSpans, processor.addTenantIDToSpans, Traces.SpanCount,
      Traces.allSpans]
  | cons rs rest ih =>
    simp only [processor.addTenantIDToSpans, Traces.SpanCount, Traces.allSpans] at ih ⊢
    simp only [List.map_cons, assertResourceSpans, assertILS_stamped, ih, List.flatMap_cons,
      List.length_append]
    congr 1
    omega

theorem allSpans_addTenantIDToSpans (p : processor) (td : Traces) (v : String) :
    (p.addTenantIDToSpans td v).allSpans = td.allSpans.map (p.stampSpan v) := by
  simp only [processor.addTenantIDToSpans, Traces.allSpans, List.flatMap_map, List.map_flatMap,
    Function.comp]

theorem addTenantIDToSpans_no_spans (p : processor) (td : Traces) (v : String)
    (h : td.SpanCount = 0) : p.addTenantIDToSpans td v = td := by
  obtain ⟨rss⟩ := td
  have hnil : (Traces.mk rss).allSpans = [] := List.length_eq_zero.mp h
  simp only [Traces.allSpans, List.flatMap_eq_nil_iff] at hnil
  simp only [processor.addTenantIDToSpans]
  congr 1
  conv_rhs => rw [← List.map_id rss]
  apply List.map_congr_left
  intro rs hrs
  obtain ⟨ra, ilss⟩ := rs
  simp only [id, ResourceSpans.mk.injEq, true_and]
  conv_rhs => rw [← List.map_id ilss]
  apply List.map_congr_left
  intro ils hils
  have := hnil _ hrs ils hils
  obtain ⟨spans⟩ := ils
  simp only at this
  simp [this]

/-- Claim C7: the tenant-ID processor's `ProcessTraces` fails unless the context carries
incoming metadata with exactly one value for the tenant-ID header, the header name
being looked up in lower case: without incoming metadata the message contains
"could not extract headers", with metadata lacking the header it contains
"missing header", with more than one value it contains
"multiple tenant ID headers". -/
theorem tenant_ProcessTraces_errors (lower : String → String) (p : processor) (ctx : Context)
    (td : Traces) :
    (ctx.incomingMetadata = none →
      ∃ msg a b, p.ProcessTraces lower ctx td = .error msg ∧
        msg = a ++ "could not extract headers" ++ b) ∧
    (∀ md, ctx.incomingMetadata = some md → md.Get lower p.tenantIDHeaderName = [] →
      ∃ msg a b, p.ProcessTraces lower ctx td = .error msg ∧
        msg = a ++ "missing header" ++ b) ∧
    (∀ md, ctx.incomingMetadata = some md → 2 ≤ (md.Get lower p.tenantIDHeaderName).length →
      ∃ msg a b, p.ProcessTraces lower ctx td = .error msg ∧
        msg = a ++ "multiple tenant ID headers" ++ b) ∧
    ((∃ td', p.ProcessTraces lower ctx td = .ok td') ↔
      ∃ md v, ctx.incomingMetadata = some md ∧ md.Get lower p.tenantIDHeaderName = [v]) := by
  refine ⟨?_, ?_, ?_, ?_⟩
  · intro h
    exact ⟨"could not extract headers", "", "", by simp [processor.ProcessTraces, h], by simp⟩
  · intro md h hget
    exact ⟨"missing header", "", "", by simp [processor.ProcessTraces, h, hget], by simp⟩
  · intro md h hlen
    refine ⟨"multiple tenant ID headers", "", "", ?_, by simp⟩
    simp only [processor.ProcessTraces, h]
    match hg : md.Get lower p.tenantIDHeaderName with
    | [] => simp [hg] at hlen
    | [_] => simp [hg] at hlen
    | _ :: _ :: _ => rfl
  · constructor
    · rintro ⟨td', h⟩
      simp only [processor.ProcessTraces] at h
      cases hctx : ctx.incomingMetadata with
      | none => simp [hctx] at h
      | some md =>
        simp only [hctx] at h
        match hg : md.Get lower p.tenantIDHeaderName with
        | [] => simp [hg] at h
        | [v] => exact ⟨md, v, rfl, hg⟩
        | _ :: _ :: _ => simp [hg] at h
    · rintro ⟨md, v, hctx, hg⟩
      exact ⟨p.addTenantIDToSpans td v, by simp [processor.ProcessTraces, hctx, hg]⟩

theorem tenant_ProcessTraces_errors_witness :
    (∃ msg a b, sampleProcessor.ProcessTraces asciiToLower
        (NewIncomingContext Context.Background
          ((MD.New asciiToLower [("x-tenant-id", testTenantID)]).Append asciiToLower
            "X-Tenant-Id" ["jdoe2"])) NewTraces
          = .error msg ∧
      msg = a ++ "multiple tenant ID headers" ++ b) ∧
    ∃ td', sampleProcessor.ProcessTraces asciiToLower
        (NewIncomingContext Context.Background (MD.New asciiToLower [("x-tenant-id", testTenantID)]))
        NewTraces = .ok td' :=
  ⟨(tenant_ProcessTraces_errors asciiToLower sampleProcessor
      (NewIncomingContext Context.Background
        ((MD.New asciiToLower [("x-tenant-id", testTenantID)]).Append asciiToLower
          "X-Tenant-Id" ["jdoe2"])) NewTraces).2.2.1
      _ rfl (by decide),
    (tenant_ProcessTraces_errors asciiToLower sampleProcessor
      (NewIncomingContext Context.Background (MD.New asciiToLower [("x-tenant-id", testTenantID)]))
      NewTraces).2.2.2.mpr ⟨_, testTenantID, rfl, by decide⟩⟩

/-- Claim C8: when the incoming metadata holds exactly one tenant-ID header value `v`
(the header name being looked up in lower case), the tenant-ID processor's
`ProcessTraces` returns no error and a batch in which every span carries the
attribute `tenantIDAttributeKey` with string type and value `v`; the test helper
counts as many stamped spans as the batch has spans; a batch with no spans is
returned as it was given. -/
theorem tenant_ProcessTraces_stamps (lower : String → String) (p : processor) (md : MD)
    (td : Traces) (v : String) (hv : md.Get lower p.tenantIDHeaderName = [v]) :
    ∃ td', p.ProcessTraces lower ⟨some md⟩ td = .ok td' ∧
      (∀ s ∈ td'.allSpans, ∃ a, AttributeMap.Get s.attributes p.tenantIDAttributeKey = some a ∧
        a.Type = .STRING ∧ a.StringVal = v) ∧
      assertTenantAttributeExists td' p.tenantIDAttributeKey v = some td.SpanCount ∧
      td'.SpanCount = td.SpanCount ∧
      (td.SpanCount = 0 → td' = td) := by
  refine ⟨p.addTenantIDToSpans td v, by simp [processor.ProcessTraces, hv], ?_, ?_, ?_, ?_⟩
  · intro s hs
    rw [allSpans_addTenantIDToSpans] at hs
    obtain ⟨s0, -, rfl⟩ := List.mem_map.mp hs
    exact ⟨.string v, Get_UpsertString _ _ _, rfl, rfl⟩
  · have := assertResourceSpans_stamped p v td.resourceSpans 0
    simpa [assertTenantAttributeExists] using this
  · simp [Traces.SpanCount, allSpans_addTenantIDToSpans]
  · exact addTenantIDToSpans_no_spans p td v

theorem tenant_ProcessTraces_stamps_witness :
    ∃ td', sampleProcessor.ProcessTraces asciiToLower
        ⟨some (MD.New asciiToLower [("x-Tenant-id", testTenantID)])⟩ sampleTraces = .ok td' ∧
      assertTenantAttributeExists td' "tenant-id" testTenantID = some 2 :=
  let ⟨td', h1, _, h3, _⟩ := tenant_ProcessTraces_stamps asciiToLower sampleProcessor
    (MD.New asciiToLower [("x-Tenant-id", testTenantID)]) sampleTraces testTenantID (by decide)
  ⟨td', h1, h3⟩

end Hypertrace
